import Mathlib

/-!
Verification of the CycleMaps elevation/gradient profile engine.

The definitions below are shallow embeddings of the JavaScript functions in
`src/static/js/shared.js` (builder page) and `src/unnamed/part_001` (route
detail page): the sampling loop of `fetchElevation`, the sanitization and
cumulative-distance construction, `haversine`, the gradient segmentation of
`applyGradientColoring`, the peak/valley detection and nearest-sample hover
scan of `drawElevationProfile`/`setupProfileHover`, and the debounce/abort
coordination of `queryOSRM`/`fetchElevation`.

JavaScript numbers are modelled as `ℚ` where only field operations and
comparisons occur, and as `ℝ` where transcendental functions occur
(`haversine`).  Nullable response values are modelled as `Option ℚ`.
-/

namespace CycleMaps

/-! ### Sampler: the downsampling loop of `fetchElevation`
(`shared.js` lines 1105-1118, `part_001` lines 186-197)

```js
const maxSamples = 80;
const step = Math.max(1, Math.floor(coords.length / maxSamples));
const sampled = []; const indices = [];
for (let i = 0; i < coords.length; i += step) { sampled.push(coords[i]); indices.push(i); }
if (sampled.length > 0 && sampled[sampled.length - 1] !== coords[coords.length - 1]) {
  sampled.push(coords[coords.length - 1]); indices.push(coords.length - 1);
}
```

The loop is embedded with an explicit fuel argument (the loop advances `i`
by `step ≥ 1` each iteration, so fuel `m` always suffices); `sampled` is the
pointwise image of `indices` in `coords`, so the index list carries all the
information.  The reference-inequality test `sampled[last] !== coords[m-1]`
distinguishes distinct array objects, i.e. distinct indices, hence it is
embedded as an index comparison. -/

def maxSamples : ℕ := 80

/-- The loop `for (let i = 0; i < m; i += step)` collecting the visited
indices; `fuel` bounds the number of remaining iterations. -/
def strideLoop (m stride : ℕ) : ℕ → ℕ → List ℕ
  | 0, _ => []
  | fuel + 1, i => if i < m then i :: strideLoop m stride fuel (i + stride) else []

/-- Indices retained by the sampling step of `fetchElevation` for a path of
`m` coordinates: stride `max 1 (m / maxSamples)`, then force-append `m - 1`
when the last retained index differs from it. -/
def sampleIndices (m : ℕ) : List ℕ :=
  let stride := max 1 (m / maxSamples)
  let base := strideLoop m stride m 0
  if base ≠ [] ∧ base.getLast? ≠ some (m - 1) then base ++ [m - 1] else base

/-- The sampled coordinates are the retained indices read back from the path. -/
def sampleCoords (coords : List (ℚ × ℚ)) : List (ℚ × ℚ) :=
  (sampleIndices coords.length).map fun i => coords.getD i (0, 0)

lemma strideLoop_eq_nil_of_le (m stride fuel i : ℕ) (h : m ≤ i) :
    strideLoop m stride fuel i = [] := by
  cases fuel with
  | zero => rfl
  | succ fuel => simp [strideLoop, Nat.not_lt.mpr h]

lemma strideLoop_head (m stride fuel i : ℕ) (hfuel : m ≤ fuel + i) (him : i < m) :
    (strideLoop m stride fuel i).head? = some i := by
  cases fuel with
  | zero => omega
  | succ fuel => simp [strideLoop, him]

lemma strideLoop_getLast (m stride : ℕ) (hstride : 1 ≤ stride) :
    ∀ fuel i, m ≤ fuel + i → i < m →
      ∃ l, (strideLoop m stride fuel i).getLast? = some l ∧ l < m ∧ m ≤ l + stride := by
  intro fuel
  induction fuel with
  | zero => intro i hfuel him; omega
  | succ fuel ih =>
    intro i hfuel him
    rw [strideLoop, if_pos him]
    by_cases hnext : i + stride < m
    · obtain ⟨l, hl, hlm, hml⟩ := ih (i + stride) (by omega) hnext
      refine ⟨l, ?_, hlm, hml⟩
      rw [List.getLast?_cons, hl]
      rfl
    · rw [strideLoop_eq_nil_of_le m stride fuel (i + stride) (by omega)]
      exact ⟨i, rfl, him, by omega⟩

lemma strideLoop_length_mul (m stride : ℕ) (hstride : 1 ≤ stride) :
    ∀ fuel i, m ≤ fuel + i →
      (strideLoop m stride fuel i).length * stride ≤ (m - i) + (stride - 1) := by
  intro fuel
  induction fuel with
  | zero => intro i _; simp [strideLoop]
  | succ fuel ih =>
    intro i hfuel
    by_cases him : i < m
    · rw [strideLoop, if_pos him]
      have hrec := ih (i + stride) (by omega)
      by_cases hnext : i + stride ≤ m
      · simp only [List.length_cons]
        have : (strideLoop m stride fuel (i + stride)).length * stride + stride ≤
            (m - (i + stride)) + (stride - 1) + stride := by omega
        calc ((strideLoop m stride fuel (i + stride)).length + 1) * stride
            = (strideLoop m stride fuel (i + stride)).length * stride + stride := by ring
          _ ≤ (m - (i + stride)) + (stride - 1) + stride := this
          _ ≤ (m - i) + (stride - 1) := by omega
      · -- past-the-end step: the recursive call is exhausted
        have hzero : strideLoop m stride fuel (i + stride) = [] :=
          strideLoop_eq_nil_of_le m stride fuel (i + stride) (by omega)
        rw [hzero]
        simp only [List.length_cons, List.length_nil]
        omega
    · rw [strideLoop_eq_nil_of_le m stride (fuel + 1) i (by omega)]
      simp

/-- Endpoint anchoring of the sampler, and the bound the implemented stride
choice actually guarantees: the first retained original index is `0`, the last
is `m - 1`, and the sample count is at most `2 * maxSamples - 1 = 159`
(attained at `m = 159`, where the stride is still `1` and every point is
retained) — not the `maxSamples + 1 = 81` announced by the code's own
comment and by the spec. -/
theorem sampler_first_last_and_bound (m : ℕ) (hm : 2 ≤ m) :
    (sampleIndices m).head? = some 0 ∧
    (sampleIndices m).getLast? = some (m - 1) ∧
    (sampleIndices m).length ≤ 2 * maxSamples - 1 := by
  have hstride1 : 1 ≤ max 1 (m / 80) := le_max_left _ _
  have hhead := strideLoop_head m (max 1 (m / 80)) m 0 (by omega) (by omega)
  obtain ⟨l, hlast, hlm, hml⟩ :=
    strideLoop_getLast m (max 1 (m / 80)) hstride1 m 0 (by omega) (by omega)
  have hlen := strideLoop_length_mul m (max 1 (m / 80)) hstride1 m 0 (by omega)
  have hbase_ne : strideLoop m (max 1 (m / 80)) m 0 ≠ [] := by
    intro h
    rw [h] at hhead
    simp at hhead
  have hbig : 160 ≤ m → (strideLoop m (max 1 (m / 80)) m 0).length ≤ 120 := by
    intro hbigm
    have hs : max 1 (m / 80) = m / 80 := by omega
    rw [hs] at hlen
    by_contra hL
    have h121 : 121 ≤ (strideLoop m (max 1 (m / 80)) m 0).length := by omega
    rw [hs] at h121
    have hms : 121 * (m / 80) ≤ (strideLoop m (m / 80) m 0).length * (m / 80) :=
      Nat.mul_le_mul_right _ h121
    have h1 : 121 * (m / 80) ≤ (m - 0) + (m / 80 - 1) := le_trans hms hlen
    omega
  have hsmall : m ≤ 159 →
      (strideLoop m (max 1 (m / 80)) m 0).length ≤ m ∧ l = m - 1 := by
    intro hsmallm
    have hs : max 1 (m / 80) = 1 := by omega
    rw [hs] at hlen hml ⊢
    exact ⟨by omega, by omega⟩
  simp only [sampleIndices, maxSamples]
  by_cases happ : strideLoop m (max 1 (m / 80)) m 0 ≠ [] ∧
      (strideLoop m (max 1 (m / 80)) m 0).getLast? ≠ some (m - 1)
  · rw [if_pos happ]
    have hmbig : 160 ≤ m := by
      by_contra hc
      have hl_eq : l = m - 1 := (hsmall (by omega)).2
      exact happ.2 (hl_eq ▸ hlast)
    refine ⟨?_, List.getLast?_concat _, ?_⟩
    · rw [List.head?_append_of_ne_nil _ hbase_ne]
      exact hhead
    · rw [List.length_append]
      have := hbig hmbig
      simp only [List.length_cons, List.length_nil]
      omega
  · rw [if_neg happ]
    push_neg at happ
    have hlast_eq : (strideLoop m (max 1 (m / 80)) m 0).getLast? = some (m - 1) :=
      happ hbase_ne
    refine ⟨hhead, hlast_eq, ?_⟩
    by_cases hc : m ≤ 159
    · have := (hsmall hc).1
      omega
    · have := hbig (by omega)
      omega

/-- Claim C1: evaluation of the sampling step at the failing input `m = 100`.
The stride is `max 1 (100 / 80) = 1`, every one of the 100 points is
retained, and the bound `length ≤ maxSamples + 1 = 81` required by the claim
(and by the code's own comment `cap at 80 to stay within API limits`) fails:
the code, not the claim, is at fault here. -/
theorem sampler_bound_counterexample :
    (sampleIndices 100).head? = some 0 ∧
    (sampleIndices 100).getLast? = some 99 ∧
    (sampleIndices 100).length = 100 ∧
    ¬((sampleIndices 100).length ≤ maxSamples + 1) := by decide

/-- Witness for `sampler_first_last_and_bound` at the concrete path length 5. -/
theorem sampler_first_last_and_bound_witness :
    2 ≤ 5 ∧
    ((sampleIndices 5).head? = some 0 ∧
     (sampleIndices 5).getLast? = some (5 - 1) ∧
     (sampleIndices 5).length ≤ 2 * maxSamples - 1) :=
  ⟨by decide, sampler_first_last_and_bound 5 (by decide)⟩

/-! ### Sanitization and elevation gain of `fetchElevation`
(`shared.js` lines 1141-1149, `part_001` lines 199-220)

```js
if (data.elevations) {
  for (let i = 0; i < data.elevations.length; i++) {
    if (data.elevations[i] == null || isNaN(data.elevations[i])) { data.elevations[i] = 0; }
  }
}
routeElevationGain = data.elevation_gain_m || 0;
```

A response elevation entry is `Option ℚ`: `none` models `null`/`undefined`/
non-numeric (`isNaN`) entries, `some x` a numeric value. -/

/-- In-place sanitization: each `null`/non-numeric entry becomes `0`, numeric
entries are kept. -/
def sanitizeElevations (elevs : List (Option ℚ)) : List ℚ :=
  elevs.map fun e =>
    match e with
    | none => 0
    | some x => x

/-- Model of `routeElevationGain = data.elevation_gain_m || 0`: the JavaScript
`||` yields the left operand unless it is falsy (absent, `null`, `NaN` or `0`),
in which case it yields `0`. -/
def elevationGainOf (gain : Option ℚ) : ℚ :=
  match gain with
  | none => 0
  | some g => if g = 0 then 0 else g

/-- Modelled from the spec (§4.3): the fallback gain the spec describes, the
sum of positive deltas between consecutive sanitized elevations.  This
definition follows the spec's words and exists only to be compared with
`elevationGainOf`; no such computation appears in the source. -/
def specGainPositiveDeltas (elevs : List ℚ) : ℚ :=
  ((elevs.zip elevs.tail).map fun p => max (p.2 - p.1) 0).sum

/-- Claim C4: sanitization replaces each `null`/non-numeric entry by `0`,
keeps every numeric entry, and drops no sample. -/
theorem sanitize_pointwise (elevs : List (Option ℚ)) (i : ℕ) (hi : i < elevs.length) :
    (sanitizeElevations elevs).length = elevs.length ∧
    (elevs.getD i none = none → (sanitizeElevations elevs).getD i 0 = 0) ∧
    (∀ x : ℚ, elevs.getD i none = some x → (sanitizeElevations elevs).getD i 0 = x) := by
  unfold sanitizeElevations
  refine ⟨List.length_map _ _, ?_, ?_⟩
  · intro hnone
    rw [List.getD_eq_getElem?_getD] at hnone ⊢
    rw [List.getElem?_map]
    rw [List.getElem?_eq_getElem hi] at hnone ⊢
    simp only [Option.getD_some] at hnone
    simp [hnone]
  · intro x hx
    rw [List.getD_eq_getElem?_getD] at hx ⊢
    rw [List.getElem?_map]
    rw [List.getElem?_eq_getElem hi] at hx ⊢
    simp only [Option.getD_some] at hx
    simp [hx]

/-- Witness for `sanitize_pointwise` on the spec's own scenario
`[null, 120, 130]` at index 0. -/
theorem sanitize_pointwise_witness :
    0 < ([none, some 120, some 130] : List (Option ℚ)).length ∧
    ((sanitizeElevations [none, some 120, some 130]).length =
        ([none, some 120, some 130] : List (Option ℚ)).length ∧
     (([none, some 120, some 130] : List (Option ℚ)).getD 0 none = none →
        (sanitizeElevations [none, some 120, some 130]).getD 0 0 = 0) ∧
     (∀ x : ℚ, ([none, some 120, some 130] : List (Option ℚ)).getD 0 none = some x →
        (sanitizeElevations [none, some 120, some 130]).getD 0 0 = x)) :=
  ⟨by decide, sanitize_pointwise [none, some 120, some 130] 0 (by decide)⟩

/-- Claim C2 counterexample: for the spec's scenario — elevations
`[null, 120, 130]`, no supplied `elevation_gain_m` — the code stores
`elevationGain = 0`, not the claimed `130`: no positive-delta summation
exists in `fetchElevation`. -/
theorem elevation_gain_counterexample :
    elevationGainOf none = 0 ∧
    sanitizeElevations [none, some 120, some 130] = [0, 120, 130] ∧
    specGainPositiveDeltas [0, 120, 130] = 130 ∧
    elevationGainOf none ≠ 130 := by
  refine ⟨rfl, rfl, ?_, by norm_num [elevationGainOf]⟩
  norm_num [specGainPositiveDeltas]

/-- Claim C2 (amended): after a successful elevation lookup the stored
`elevationGain` is the response's `elevation_gain_m` verbatim when it is
supplied and nonzero, and `0` otherwise (absent, null, `NaN`, or zero gain);
it is never computed from the elevation deltas.  In particular the scenario
`[null, 120, 130]` with no supplied gain yields `0`, not `130`. -/
theorem elevation_gain_verbatim_or_zero (g : ℚ) (hg : g ≠ 0) :
    elevationGainOf (some g) = g ∧ elevationGainOf none = 0 := by
  constructor
  · simp [elevationGainOf, hg]
  · rfl

/-- Witness for `elevation_gain_verbatim_or_zero` at the concrete gain 7. -/
theorem elevation_gain_verbatim_or_zero_witness :
    (7 : ℚ) ≠ 0 ∧ (elevationGainOf (some 7) = 7 ∧ elevationGainOf none = 0) :=
  ⟨by norm_num, elevation_gain_verbatim_or_zero 7 (by norm_num)⟩

/-! ### Chart arithmetic of `drawElevationProfile` and `setupProfileHover`
(`shared.js` lines 1276-1278, 1327-1330, 1353-1367, 1462-1467;
`part_001` lines 328-330, 405-419, 493-498)

`Math.min(...elevs)` / `Math.max(...elevs)` over a non-empty spread, the
`elevRange = maxElev - minElev || 1` fallback, the per-segment grade, the
peak/valley markers, and the nearest-sample hover scan. -/

/-- Model of `Math.min(...elevs)` for a non-empty list (the empty case never occurs:
the chart requires at least 2 elevations). -/
def listMin : List ℚ → ℚ
  | [] => 0
  | x :: xs => xs.foldl min x

/-- Model of `Math.max(...elevs)` for a non-empty list. -/
def listMax : List ℚ → ℚ
  | [] => 0
  | x :: xs => xs.foldl max x

/-- Model of `const elevRange = maxElev - minElev || 1;` — the JavaScript `||` replaces
a zero range by 1. -/
def elevRange (elevs : List ℚ) : ℚ :=
  if listMax elevs - listMin elevs = 0 then 1 else listMax elevs - listMin elevs

lemma foldl_min_le (xs : List ℚ) : ∀ a : ℚ, xs.foldl min a ≤ a ∧ ∀ x ∈ xs, xs.foldl min a ≤ x := by
  induction xs with
  | nil => intro a; simp
  | cons y ys ih =>
    intro a
    simp only [List.foldl_cons]
    refine ⟨le_trans (ih (min a y)).1 (min_le_left _ _), ?_⟩
    intro x hx
    rcases List.mem_cons.mp hx with hxy | hxys
    · rw [hxy]
      exact le_trans (ih (min a y)).1 (min_le_right _ _)
    · exact (ih (min a y)).2 x hxys

lemma le_foldl_max (xs : List ℚ) : ∀ a : ℚ, a ≤ xs.foldl max a ∧ ∀ x ∈ xs, x ≤ xs.foldl max a := by
  induction xs with
  | nil => intro a; simp
  | cons y ys ih =>
    intro a
    simp only [List.foldl_cons]
    refine ⟨le_trans (le_max_left _ _) (ih (max a y)).1, ?_⟩
    intro x hx
    rcases List.mem_cons.mp hx with hxy | hxys
    · rw [hxy]
      exact le_trans (le_max_right _ _) (ih (max a y)).1
    · exact (ih (max a y)).2 x hxys

lemma listMin_le_mem (l : List ℚ) (x : ℚ) (hx : x ∈ l) : listMin l ≤ x := by
  cases l with
  | nil => cases hx
  | cons y ys =>
    rcases List.mem_cons.mp hx with h | h
    · exact h ▸ (foldl_min_le ys y).1
    · exact (foldl_min_le ys y).2 x h

lemma mem_le_listMax (l : List ℚ) (x : ℚ) (hx : x ∈ l) : x ≤ listMax l := by
  cases l with
  | nil => cases hx
  | cons y ys =>
    rcases List.mem_cons.mp hx with h | h
    · exact h ▸ (le_foldl_max ys y).1
    · exact (le_foldl_max ys y).2 x h

/-- Peak test of the extremum-marker loop:
`elevs[i] > elevs[i-1] && elevs[i] > elevs[i+1] &&
 (elevs[i] - Math.min(elevs[i-1], elevs[i+1])) > elevRange * 0.08`. -/
def isPeak (elevs : List ℚ) (i : ℕ) : Prop :=
  elevs.getD (i - 1) 0 < elevs.getD i 0 ∧ elevs.getD (i + 1) 0 < elevs.getD i 0 ∧
  elevRange elevs * (8 / 100) <
    elevs.getD i 0 - min (elevs.getD (i - 1) 0) (elevs.getD (i + 1) 0)

/-- Valley test of the extremum-marker loop (symmetric to `isPeak`). -/
def isValley (elevs : List ℚ) (i : ℕ) : Prop :=
  elevs.getD i 0 < elevs.getD (i - 1) 0 ∧ elevs.getD i 0 < elevs.getD (i + 1) 0 ∧
  elevRange elevs * (8 / 100) <
    max (elevs.getD (i - 1) 0) (elevs.getD (i + 1) 0) - elevs.getD i 0

/-- Claim C6: for a profile with at least 3 samples and a non-endpoint index,
the code's peak (resp. valley) test agrees with the spec's formulation whose
threshold is `0.08 * (max(elevations) - min(elevations))` — the code's `|| 1`
fallback for a zero range never changes the verdict, because a zero range
forces all elevations equal and the strict comparisons fail either way. -/
theorem peak_valley_iff (elevs : List ℚ) (i : ℕ) (hn : 3 ≤ elevs.length)
    (hi1 : 1 ≤ i) (hi2 : i ≤ elevs.length - 2) :
    (isPeak elevs i ↔
      (elevs.getD (i - 1) 0 < elevs.getD i 0 ∧ elevs.getD (i + 1) 0 < elevs.getD i 0 ∧
       (8 / 100) * (listMax elevs - listMin elevs) <
         elevs.getD i 0 - min (elevs.getD (i - 1) 0) (elevs.getD (i + 1) 0))) ∧
    (isValley elevs i ↔
      (elevs.getD i 0 < elevs.getD (i - 1) 0 ∧ elevs.getD i 0 < elevs.getD (i + 1) 0 ∧
       (8 / 100) * (listMax elevs - listMin elevs) <
         max (elevs.getD (i - 1) 0) (elevs.getD (i + 1) 0) - elevs.getD i 0)) := by
  by_cases hr : listMax elevs - listMin elevs = 0
  · -- degenerate range: every elevation equals the minimum, so the strict
    -- comparisons on both sides of each iff fail
    have hall : ∀ j, j < elevs.length → elevs.getD j 0 = listMin elevs := by
      intro j hj
      have hmem : elevs.getD j 0 ∈ elevs := by
        rw [List.getD_eq_getElem?_getD, List.getElem?_eq_getElem hj]
        exact List.getElem_mem _
      have h1 := listMin_le_mem elevs _ hmem
      have h2 := mem_le_listMax elevs _ hmem
      have : listMax elevs = listMin elevs := by linarith
      linarith [this ▸ h2]
    have hprev := hall (i - 1) (by omega)
    have hcur := hall i (by omega)
    have hnext := hall (i + 1) (by omega)
    constructor
    · constructor
      · rintro ⟨h1, -, -⟩
        rw [hprev, hcur] at h1
        exact absurd h1 (lt_irrefl _)
      · rintro ⟨h1, -, -⟩
        rw [hprev, hcur] at h1
        exact absurd h1 (lt_irrefl _)
    · constructor
      · rintro ⟨h1, -, -⟩
        rw [hprev, hcur] at h1
        exact absurd h1 (lt_irrefl _)
      · rintro ⟨h1, -, -⟩
        rw [hprev, hcur] at h1
        exact absurd h1 (lt_irrefl _)
  · unfold isPeak isValley elevRange
    rw [if_neg hr, mul_comm]
    exact ⟨Iff.rfl, Iff.rfl⟩

/-- Witness for `peak_valley_iff`: the spec's scenario `[100, 150, 100]` — the
middle sample is flagged as a peak. -/
theorem peak_valley_iff_witness :
    isPeak [(100 : ℚ), 150, 100] 1 :=
  (peak_valley_iff [(100 : ℚ), 150, 100] 1 (by norm_num) (by norm_num) (by norm_num)).1.mpr
    (by norm_num [listMax, listMin, max_def, min_def])

/-- Nearest-sample scan of `setupProfileHover`:
```js
let closest = 0;
for (let i = 1; i < dists.length; i++) {
  if (Math.abs(dists[i] - targetDist) < Math.abs(dists[closest] - targetDist)) closest = i;
}
```
embedded with a fuel argument bounding the remaining iterations. -/
def closestScan (dists : List ℚ) (t : ℚ) : ℕ → ℕ → ℕ → ℕ
  | 0, c, _ => c
  | fuel + 1, c, i =>
    if i < dists.length then
      closestScan dists t fuel
        (if |dists.getD i 0 - t| < |dists.getD c 0 - t| then i else c) (i + 1)
    else c

/-- The hover scan: `closest` starts at 0 and the loop runs from `i = 1`. -/
def closestIndex (dists : List ℚ) (t : ℚ) : ℕ :=
  closestScan dists t dists.length 0 1

lemma closestScan_spec (dists : List ℚ) (t : ℚ) :
    ∀ fuel c i, dists.length ≤ fuel + i → c < i → c < dists.length →
      (∀ j, j < i → |dists.getD c 0 - t| ≤ |dists.getD j 0 - t|) →
      (∀ j, j < i → |dists.getD j 0 - t| = |dists.getD c 0 - t| → c ≤ j) →
      closestScan dists t fuel c i < dists.length ∧
      (∀ j, j < dists.length →
        |dists.getD (closestScan dists t fuel c i) 0 - t| ≤ |dists.getD j 0 - t|) ∧
      (∀ j, j < dists.length →
        |dists.getD j 0 - t| = |dists.getD (closestScan dists t fuel c i) 0 - t| →
        closestScan dists t fuel c i ≤ j) := by
  intro fuel
  induction fuel with
  | zero =>
    intro c i hfuel hci hc hmin hties
    refine ⟨hc, ?_, ?_⟩
    · intro j hj
      exact hmin j (by omega)
    · intro j hj hje
      exact hties j (by omega) hje
  | succ fuel ih =>
    intro c i hfuel hci hc hmin hties
    rw [closestScan]
    by_cases hil : i < dists.length
    · rw [if_pos hil]
      by_cases hbetter : |dists.getD i 0 - t| < |dists.getD c 0 - t|
      · rw [if_pos hbetter]
        refine ih i (i + 1) (by omega) (by omega) hil ?_ ?_
        · intro j hj
          rcases Nat.lt_succ_iff_lt_or_eq.mp hj with hj' | hj'
          · exact le_of_lt (lt_of_lt_of_le hbetter (hmin j hj'))
          · rw [hj']
        · intro j hj hje
          rcases Nat.lt_succ_iff_lt_or_eq.mp hj with hj' | hj'
          · exact absurd hje (by have := hmin j hj'; intro h; linarith [lt_of_lt_of_le hbetter (hmin j hj')])
          · omega
      · rw [if_neg hbetter]
        push_neg at hbetter
        refine ih c (i + 1) (by omega) (by omega) hc ?_ ?_
        · intro j hj
          rcases Nat.lt_succ_iff_lt_or_eq.mp hj with hj' | hj'
          · exact hmin j hj'
          · rw [hj']; exact hbetter
        · intro j hj hje
          rcases Nat.lt_succ_iff_lt_or_eq.mp hj with hj' | hj'
          · exact hties j hj' hje
          · omega
    · rw [if_neg hil]
      refine ⟨hc, ?_, ?_⟩
      · intro j hj
        exact hmin j (by omega)
      · intro j hj hje
        exact hties j (by omega) hje

/-- Claim C7: for a profile with at least 2 samples and a target distance in
range, the hover scan returns an index of minimal absolute distance to the
target, and on ties the lower index (the first encountered). -/
theorem hover_nearest_correct (dists : List ℚ) (t : ℚ) (hn : 2 ≤ dists.length)
    (ht0 : 0 ≤ t) (ht1 : t ≤ dists.getD (dists.length - 1) 0) :
    closestIndex dists t < dists.length ∧
    (∀ j, j < dists.length →
      |dists.getD (closestIndex dists t) 0 - t| ≤ |dists.getD j 0 - t|) ∧
    (∀ j, j < dists.length →
      |dists.getD j 0 - t| = |dists.getD (closestIndex dists t) 0 - t| →
      closestIndex dists t ≤ j) := by
  unfold closestIndex
  refine closestScan_spec dists t dists.length 0 1 (by omega) (by omega) (by omega) ?_ ?_
  · intro j hj
    have : j = 0 := by omega
    rw [this]
  · intro j hj _
    omega

/-- Witness for `hover_nearest_correct` on `dists = [0, 1, 3]`, target 1. -/
theorem hover_nearest_correct_witness :
    closestIndex [(0 : ℚ), 1, 3] 1 < ([(0 : ℚ), 1, 3] : List ℚ).length ∧
    (∀ j, j < ([(0 : ℚ), 1, 3] : List ℚ).length →
      |([(0 : ℚ), 1, 3] : List ℚ).getD (closestIndex [(0 : ℚ), 1, 3] 1) 0 - 1| ≤
        |([(0 : ℚ), 1, 3] : List ℚ).getD j 0 - 1|) ∧
    (∀ j, j < ([(0 : ℚ), 1, 3] : List ℚ).length →
      |([(0 : ℚ), 1, 3] : List ℚ).getD j 0 - 1| =
        |([(0 : ℚ), 1, 3] : List ℚ).getD (closestIndex [(0 : ℚ), 1, 3] 1) 0 - 1| →
      closestIndex [(0 : ℚ), 1, 3] 1 ≤ j) :=
  hover_nearest_correct [(0 : ℚ), 1, 3] 1 (by norm_num) (by norm_num) (by norm_num)

/-- Per-segment grade of `applyGradientColoring` and `drawElevationProfile`:
```js
const rise = elevs[i + 1] - elevs[i];
const run = (dists[i + 1] - dists[i]) * 1000;
const grade = run > 0 ? Math.abs(rise / run) * 100 : 0;
``` -/
def segGrade (elevs dists : List ℚ) (i : ℕ) : ℚ :=
  let rise := elevs.getD (i + 1) 0 - elevs.getD i 0
  let run := (dists.getD (i + 1) 0 - dists.getD i 0) * 1000
  if 0 < run then |rise / run| * 100 else 0

/-- Claim C8: the unsigned grade is `|Δelev| / run * 100` when the horizontal
run is positive and `0` when the run is zero — the guarded branch never
divides by zero. -/
theorem grade_division_safe (elevs dists : List ℚ) (i : ℕ) :
    ((dists.getD (i + 1) 0 - dists.getD i 0) * 1000 = 0 → segGrade elevs dists i = 0) ∧
    (0 < (dists.getD (i + 1) 0 - dists.getD i 0) * 1000 →
      segGrade elevs dists i =
        |elevs.getD (i + 1) 0 - elevs.getD i 0| /
          ((dists.getD (i + 1) 0 - dists.getD i 0) * 1000) * 100) := by
  constructor
  · intro h
    simp only [segGrade]
    rw [h, if_neg (lt_irrefl (0 : ℚ))]
  · intro h
    simp only [segGrade, if_pos h]
    rw [abs_div, abs_of_pos h]

/-- Witness for `grade_division_safe` on a 10 m rise over a 1 km run. -/
theorem grade_division_safe_witness :
    segGrade [(0 : ℚ), 10] [(0 : ℚ), 1] 0 =
      |([(0 : ℚ), 10] : List ℚ).getD 1 0 - ([(0 : ℚ), 10] : List ℚ).getD 0 0| /
        ((([(0 : ℚ), 1] : List ℚ).getD 1 0 - ([(0 : ℚ), 1] : List ℚ).getD 0 0) * 1000) * 100 :=
  (grade_division_safe [(0 : ℚ), 10] [(0 : ℚ), 1] 0).2 (by norm_num)

/-! ### `haversine` and the cumulative-distance construction
(`shared.js` lines 1151-1158 and 1236-1243, `part_001` lines 208-213 and
291-297)

```js
function haversine(lat1, lon1, lat2, lon2) {
  const R = 6371;
  const dLat = (lat2 - lat1) * Math.PI / 180;
  const dLon = (lon2 - lon1) * Math.PI / 180;
  const a = Math.sin(dLat/2)**2 + Math.cos(lat1*Math.PI/180)*Math.cos(lat2*Math.PI/180)*Math.sin(dLon/2)**2;
  return R * 2 * Math.atan2(Math.sqrt(a), Math.sqrt(1-a));
}
```

`Math.atan2` is embedded by its standard piecewise definition in terms of
`arctan`. -/

/-- Model of `Math.atan2(y, x)` by its standard piecewise definition. -/
noncomputable def atan2 (y x : ℝ) : ℝ :=
  if 0 < x then Real.arctan (y / x)
  else if x < 0 then
    (if 0 ≤ y then Real.arctan (y / x) + Real.pi else Real.arctan (y / x) - Real.pi)
  else
    (if 0 < y then Real.pi / 2 else if y < 0 then -(Real.pi / 2) else 0)

/-- Great-circle distance in km, Earth radius 6371 km. -/
noncomputable def haversine (lat1 lon1 lat2 lon2 : ℝ) : ℝ :=
  let R : ℝ := 6371
  let dLat := (lat2 - lat1) * Real.pi / 180
  let dLon := (lon2 - lon1) * Real.pi / 180
  let a := Real.sin (dLat / 2) ^ 2 +
    Real.cos (lat1 * Real.pi / 180) * Real.cos (lat2 * Real.pi / 180) * Real.sin (dLon / 2) ^ 2
  R * 2 * atan2 (Real.sqrt a) (Real.sqrt (1 - a))

lemma arctan_nonneg_of_nonneg (z : ℝ) (hz : 0 ≤ z) : 0 ≤ Real.arctan z := by
  have h := Real.arctan_strictMono.monotone hz
  rwa [Real.arctan_zero] at h

lemma atan2_nonneg (y x : ℝ) (hy : 0 ≤ y) (hx : 0 ≤ x) : 0 ≤ atan2 y x := by
  unfold atan2
  by_cases h1 : 0 < x
  · rw [if_pos h1]
    exact arctan_nonneg_of_nonneg _ (div_nonneg hy hx)
  · rw [if_neg h1, if_neg (by linarith : ¬x < 0)]
    by_cases h2 : 0 < y
    · rw [if_pos h2]
      linarith [Real.pi_pos]
    · rw [if_neg h2, if_neg (by linarith : ¬y < 0)]

lemma haversine_nonneg (lat1 lon1 lat2 lon2 : ℝ) : 0 ≤ haversine lat1 lon1 lat2 lon2 := by
  simp only [haversine]
  have h := atan2_nonneg (Real.sqrt (Real.sin ((lat2 - lat1) * Real.pi / 180 / 2) ^ 2 +
      Real.cos (lat1 * Real.pi / 180) * Real.cos (lat2 * Real.pi / 180) *
        Real.sin ((lon2 - lon1) * Real.pi / 180 / 2) ^ 2))
    (Real.sqrt (1 - (Real.sin ((lat2 - lat1) * Real.pi / 180 / 2) ^ 2 +
      Real.cos (lat1 * Real.pi / 180) * Real.cos (lat2 * Real.pi / 180) *
        Real.sin ((lon2 - lon1) * Real.pi / 180 / 2) ^ 2)))
    (Real.sqrt_nonneg _) (Real.sqrt_nonneg _)
  linarith

/-- Claim C10: `haversine` is symmetric in its two points, everywhere
non-negative, and zero on identical points. -/
theorem haversine_symm_nonneg_diag (lat1 lon1 lat2 lon2 : ℝ) :
    haversine lat1 lon1 lat2 lon2 = haversine lat2 lon2 lat1 lon1 ∧
    0 ≤ haversine lat1 lon1 lat2 lon2 ∧
    haversine lat1 lon1 lat1 lon1 = 0 := by
  refine ⟨?_, haversine_nonneg lat1 lon1 lat2 lon2, ?_⟩
  · have ha : ∀ u v : ℝ, Real.sin ((u - v) * Real.pi / 180 / 2) ^ 2 =
        Real.sin ((v - u) * Real.pi / 180 / 2) ^ 2 := by
      intro u v
      rw [show (u - v) * Real.pi / 180 / 2 = -((v - u) * Real.pi / 180 / 2) by ring,
        Real.sin_neg, neg_sq]
    simp only [haversine]
    rw [ha lat2 lat1, ha lon2 lon1,
      mul_comm (Real.cos (lat1 * Real.pi / 180)) (Real.cos (lat2 * Real.pi / 180))]
  · simp only [haversine, sub_self, zero_mul, zero_div, Real.sin_zero]
    norm_num [atan2, Real.arctan_zero]

/-- Cumulative-distance loop of `fetchElevation`:
```js
const distances = [0];
for (let i = 1; i < sampled.length; i++) {
  const [lng1, lat1] = sampled[i - 1];
  const [lng2, lat2] = sampled[i];
  distances.push(distances[i - 1] + haversine(lat1, lng1, lat2, lng2));
}
```
A sampled coordinate is an `[lng, lat]` pair, modelled as `(lng, lat) : ℝ × ℝ`. -/
noncomputable def cumAux (d : ℝ) (prev : ℝ × ℝ) : List (ℝ × ℝ) → List ℝ
  | [] => []
  | c :: rest =>
    (d + haversine prev.2 prev.1 c.2 c.1) ::
      cumAux (d + haversine prev.2 prev.1 c.2 c.1) c rest

/-- The cumulative distances of a sampled coordinate sequence. -/
noncomputable def cumDistances : List (ℝ × ℝ) → List ℝ
  | [] => [0]
  | c :: rest => 0 :: cumAux 0 c rest

lemma cumAux_chain : ∀ (rest : List (ℝ × ℝ)) (d : ℝ) (prev : ℝ × ℝ),
    List.Chain' (· ≤ ·) (d :: cumAux d prev rest) := by
  intro rest
  induction rest with
  | nil => intro d prev; simp [cumAux]
  | cons c cs ih =>
    intro d prev
    rw [cumAux]
    exact List.chain'_cons.mpr
      ⟨le_add_of_nonneg_right (haversine_nonneg prev.2 prev.1 c.2 c.1), ih _ c⟩

/-- Claim C9: the cumulative distances start at 0 and are non-decreasing. -/
theorem distances_start_zero_monotone (coords : List (ℝ × ℝ)) :
    (cumDistances coords).head? = some 0 ∧
    List.Chain' (· ≤ ·) (cumDistances coords) := by
  cases coords with
  | nil => exact ⟨rfl, by simp [cumDistances]⟩
  | cons c rest => exact ⟨rfl, cumAux_chain rest 0 c⟩

/-! ### Gradient segmentation of `applyGradientColoring`
(`shared.js` lines 1003-1031, `part_001` lines 112-144)

```js
for (let i = 0; i < elevs.length - 1; i++) {
  ...
  segCoords = allCoords.slice(indices[i], indices[i + 1] + 1);
  ...
  if (segCoords.length < 2) continue;
  features.push({ ..., geometry: { type: 'LineString', coordinates: segCoords } });
}
```

`allCoords.slice(a, b + 1)` is the inclusive slice from index `a` to `b`.
The geometry of each emitted segment is modelled; its grade is `segGrade`
(Claim C8). -/

/-- Model of `path.slice(a, b + 1)`: the coordinates from index `a` to `b` inclusive. -/
def sliceIncl {α : Type*} (path : List α) (a b : ℕ) : List α :=
  (path.drop a).take (b + 1 - a)

/-- The segment geometries emitted by the gradient-coloring loop, walking the
consecutive index pairs; a slice with fewer than 2 points is skipped
(`continue`). -/
def gradientSegments {α : Type*} : List ℕ → List α → List (List α)
  | a :: b :: rest, path =>
    if (sliceIncl path a b).length < 2 then gradientSegments (b :: rest) path
    else sliceIncl path a b :: gradientSegments (b :: rest) path
  | _, _ => []

/-- Concatenation of segments where each later segment contributes everything
after its first point (the boundary point shared with its predecessor). -/
def dedupJoin {α : Type*} : List (List α) → List α
  | [] => []
  | s :: rest => s ++ (dedupJoin rest).tail

lemma sliceIncl_length {α : Type*} (path : List α) (a b : ℕ)
    (hab : a ≤ b) (hb : b < path.length) : (sliceIncl path a b).length = b + 1 - a := by
  simp only [sliceIncl, List.length_take, List.length_drop]
  omega

lemma sliceIncl_head? {α : Type*} (path : List α) (a b : ℕ)
    (hab : a ≤ b) (ha : a < path.length) : (sliceIncl path a b).head? = path[a]? := by
  rw [sliceIncl, List.head?_eq_getElem?, List.getElem?_take_of_lt (by omega),
    List.getElem?_drop, Nat.add_zero]

lemma sliceIncl_getLast? {α : Type*} (path : List α) (a b : ℕ)
    (hab : a ≤ b) (hb : b < path.length) : (sliceIncl path a b).getLast? = path[b]? := by
  rw [List.getLast?_eq_getElem?, sliceIncl_length path a b hab hb, sliceIncl,
    List.getElem?_take_of_lt (by omega), List.getElem?_drop]
  congr 1
  omega

lemma sliceIncl_glue {α : Type*} (path : List α) (a b L : ℕ)
    (hab : a < b) (hbL : b ≤ L) (hL : L < path.length) :
    sliceIncl path a b ++ (sliceIncl path b L).tail = sliceIncl path a L := by
  have htail : (sliceIncl path b L).tail = (path.drop (b + 1)).take (L - b) := by
    rw [sliceIncl, ← List.drop_one, List.drop_take, List.drop_drop]
    congr 1
    omega
  rw [htail]
  have hlen1 : (List.take (b + 1 - a) (path.drop a)).length = b + 1 - a := by
    simp only [List.length_take, List.length_drop]
    omega
  simp only [sliceIncl]
  apply List.ext_getElem?
  intro n
  by_cases h1 : n < b + 1 - a
  · rw [List.getElem?_append_left (by rw [hlen1]; exact h1),
      List.getElem?_take_of_lt h1, List.getElem?_take_of_lt (by omega : n < L + 1 - a)]
  · rw [List.getElem?_append_right (by rw [hlen1]; omega), hlen1,
      List.getElem?_take, List.getElem?_take, List.getElem?_drop, List.getElem?_drop]
    by_cases h2 : n < L + 1 - a
    · rw [if_pos (by omega), if_pos (by omega)]
      congr 1
      omega
    · rw [if_neg (by omega), if_neg (by omega)]

lemma chain_lt_head_le_getLast : ∀ (xs : List ℕ) (x L : ℕ),
    List.Chain' (· < ·) (x :: xs) → (x :: xs).getLast? = some L → x ≤ L := by
  intro xs
  induction xs with
  | nil =>
    intro x L _ hlast
    simp only [List.getLast?_singleton, Option.some.injEq] at hlast
    omega
  | cons y ys ih =>
    intro x L hchain hlast
    rw [List.getLast?_cons_cons] at hlast
    have hxy : x < y := (List.chain'_cons.mp hchain).1
    have := ih y L (List.chain'_cons.mp hchain).2 hlast
    omega

lemma gradientSegments_cons {α : Type*} (path : List α) (a b : ℕ) (rest : List ℕ)
    (hab : a < b) (hb : b < path.length) :
    gradientSegments (a :: b :: rest) path =
      sliceIncl path a b :: gradientSegments (b :: rest) path := by
  rw [gradientSegments, if_neg (by rw [sliceIncl_length path a b (by omega) hb]; omega)]

lemma dedupJoin_gradientSegments {α : Type*} (path : List α) :
    ∀ (rest : List ℕ) (a b L : ℕ), List.Chain' (· < ·) (a :: b :: rest) →
      (a :: b :: rest).getLast? = some L → L < path.length →
      dedupJoin (gradientSegments (a :: b :: rest) path) = sliceIncl path a L := by
  intro rest
  induction rest with
  | nil =>
    intro a b L hchain hlast hL
    have hab : a < b := (List.chain'_cons.mp hchain).1
    have hbL : b = L := by
      rw [List.getLast?_cons_cons, List.getLast?_singleton] at hlast
      exact Option.some.inj hlast
    subst hbL
    rw [gradientSegments_cons path a b [] hab hL]
    simp [gradientSegments, dedupJoin]
  | cons c rest' ih =>
    intro a b L hchain hlast hL
    have hab : a < b := (List.chain'_cons.mp hchain).1
    have hchain' : List.Chain' (· < ·) (b :: c :: rest') := (List.chain'_cons.mp hchain).2
    have hlast' : (b :: c :: rest').getLast? = some L := by
      rw [List.getLast?_cons_cons] at hlast
      exact hlast
    have hbL : b ≤ L := chain_lt_head_le_getLast _ b L hchain' hlast'
    rw [gradientSegments_cons path a b (c :: rest') hab (by omega), dedupJoin,
      ih b c L hchain' hlast' hL]
    exact sliceIncl_glue path a b L hab hbL hL

lemma gradientSegments_single {α : Type*} (path : List α) (b : ℕ) :
    gradientSegments [b] path = [] := rfl

lemma gradientSegments_length {α : Type*} (path : List α) :
    ∀ (rest : List ℕ) (a b L : ℕ), List.Chain' (· < ·) (a :: b :: rest) →
      (a :: b :: rest).getLast? = some L → L < path.length →
      (gradientSegments (a :: b :: rest) path).length = (a :: b :: rest).length - 1 := by
  intro rest
  induction rest with
  | nil =>
    intro a b L hchain hlast hL
    have hab : a < b := (List.chain'_cons.mp hchain).1
    have hbL : b = L := by
      rw [List.getLast?_cons_cons, List.getLast?_singleton] at hlast
      exact Option.some.inj hlast
    subst hbL
    rw [gradientSegments_cons path a b [] hab hL]
    rfl
  | cons c rest' ih =>
    intro a b L hchain hlast hL
    have hab : a < b := (List.chain'_cons.mp hchain).1
    have hchain' := (List.chain'_cons.mp hchain).2
    have hlast' : (b :: c :: rest').getLast? = some L := by
      rw [List.getLast?_cons_cons] at hlast
      exact hlast
    have hbL : b ≤ L := chain_lt_head_le_getLast _ b L hchain' hlast'
    rw [gradientSegments_cons path a b (c :: rest') hab (by omega), List.length_cons,
      ih b c L hchain' hlast' hL]
    simp only [List.length_cons]
    omega

lemma gradientSegments_boundary_chain {α : Type*} (path : List α) :
    ∀ (rest : List ℕ) (a b L : ℕ), List.Chain' (· < ·) (a :: b :: rest) →
      (a :: b :: rest).getLast? = some L → L < path.length →
      List.Chain' (fun s t => s.getLast? = t.head?) (gradientSegments (a :: b :: rest) path) := by
  intro rest
  induction rest with
  | nil =>
    intro a b L hchain hlast hL
    have hab := (List.chain'_cons.mp hchain).1
    have hbL : b = L := by
      rw [List.getLast?_cons_cons, List.getLast?_singleton] at hlast
      exact Option.some.inj hlast
    subst hbL
    rw [gradientSegments_cons path a b [] hab hL, gradientSegments_single]
    exact List.chain'_singleton _
  | cons c rest' ih =>
    intro a b L hchain hlast hL
    have hab := (List.chain'_cons.mp hchain).1
    have hchain' := (List.chain'_cons.mp hchain).2
    have hbc : b < c := (List.chain'_cons.mp hchain').1
    have hlast' : (b :: c :: rest').getLast? = some L := by
      rw [List.getLast?_cons_cons] at hlast
      exact hlast
    have hbL : b ≤ L := chain_lt_head_le_getLast _ b L hchain' hlast'
    have hcL : c ≤ L :=
      chain_lt_head_le_getLast _ c L (List.chain'_cons.mp hchain').2
        (by rw [List.getLast?_cons_cons] at hlast'; exact hlast')
    rw [gradientSegments_cons path a b (c :: rest') hab (by omega),
      gradientSegments_cons path b c rest' hbc (by omega)]
    refine List.chain'_cons.mpr ⟨?_, ?_⟩
    · rw [sliceIncl_getLast? path a b (by omega) (by omega),
        sliceIncl_head? path b c (by omega) (by omega)]
    · rw [← gradientSegments_cons path b c rest' hbc (by omega)]
      exact ih b c L hchain' hlast' hL

/-- Claim C5: for a profile whose original indices are strictly increasing
from 0 to `path.length - 1`, the gradient-coloring loop emits exactly
`n - 1` segments, consecutive segments share exactly their boundary point,
and the segment geometries joined with boundary points deduplicated
reconstruct the full-resolution path — no gaps and no duplicated interior
points. -/
theorem gradient_segments_partition {α : Type*} (indices : List ℕ) (path : List α)
    (hchain : List.Chain' (· < ·) indices) (hn : 2 ≤ indices.length)
    (hfirst : indices.head? = some 0)
    (hlast : indices.getLast? = some (path.length - 1))
    (hp : 2 ≤ path.length) :
    (gradientSegments indices path).length = indices.length - 1 ∧
    dedupJoin (gradientSegments indices path) = path ∧
    List.Chain' (fun s t => s.getLast? = t.head?) (gradientSegments indices path) := by
  obtain ⟨a, rest0, rfl⟩ : ∃ a rest0, indices = a :: rest0 := by
    cases indices with
    | nil => norm_num at hn
    | cons a r => exact ⟨a, r, rfl⟩
  obtain ⟨b, rest, rfl⟩ : ∃ b rest, rest0 = b :: rest := by
    cases rest0 with
    | nil => norm_num at hn
    | cons b r => exact ⟨b, r, rfl⟩
  have ha : a = 0 := by
    rw [List.head?_cons] at hfirst
    exact Option.some.inj hfirst
  subst ha
  have hL : path.length - 1 < path.length := by omega
  refine ⟨gradientSegments_length path rest 0 b _ hchain hlast hL, ?_,
    gradientSegments_boundary_chain path rest 0 b _ hchain hlast hL⟩
  rw [dedupJoin_gradientSegments path rest 0 b (path.length - 1) hchain hlast hL,
    sliceIncl, List.drop_zero, show path.length - 1 + 1 - 0 = path.length by omega]
  exact List.take_length path

/-- Witness for `gradient_segments_partition`: path `[10, 20, 30, 40]` with
sample indices `[0, 2, 3]`. -/
theorem gradient_segments_partition_witness :
    (gradientSegments [0, 2, 3] [10, 20, 30, 40]).length = ([0, 2, 3] : List ℕ).length - 1 ∧
    dedupJoin (gradientSegments [0, 2, 3] [10, 20, 30, 40]) = [10, 20, 30, 40] ∧
    List.Chain' (fun s t => s.getLast? = t.head?)
      (gradientSegments [0, 2, 3] ([10, 20, 30, 40] : List ℕ)) :=
  gradient_segments_partition [0, 2, 3] [10, 20, 30, 40]
    (by norm_num [List.chain'_cons]) (by decide) (by decide) (by decide) (by decide)

/-! ### Fetch coordination: debounce and abort
(`shared.js` lines 914-953 and 1092-1138)

`queryOSRM` restarts a single 300 ms timer on every geometry edit
(`clearTimeout(routeTimeout); routeTimeout = setTimeout(..., 300)`); when the
timer fires, the route is fetched and `fetchElevation` aborts the previous
in-flight elevation request (`elevAbortController.abort()`), allocates a fresh
controller and issues one new request; a response is applied only if its own
signal is still unaborted (`if (signal.aborted) return;`).

This protocol is embedded as an event-step relation.  Real time is abstracted
away: edits that occur within the debounce window are exactly the edits that
precede the timer-fire event.  A request is a `(generation, aborted)` pair,
newest first; `applied` records the generation of the last response that
updated the profile/overlay/chart/stats. -/

structure FetchState where
  timerActive : Bool
  nextGen : ℕ
  requests : List (ℕ × Bool)
  applied : Option ℕ

/-- Fresh session: no timer, no requests, nothing applied. -/
def initState : FetchState := ⟨false, 0, [], none⟩

/-- Session events: a route-geometry edit, the debounce timer firing, and the
elevation response of generation `g` settling. -/
inductive Ev where
  | edit : Ev
  | timerFire : Ev
  | respond : ℕ → Ev

/-- Model of `elevAbortController.abort()`: the newest request (the only one that can
still be unaborted) is cancelled. -/
def abortLatest : List (ℕ × Bool) → List (ℕ × Bool)
  | [] => []
  | (g, _) :: rest => (g, true) :: rest

/-- One step of the coordination protocol. -/
def step (s : FetchState) (e : Ev) : FetchState :=
  match e with
  | Ev.edit => { s with timerActive := true }
  | Ev.timerFire =>
    if s.timerActive then
      { timerActive := false, nextGen := s.nextGen + 1,
        requests := (s.nextGen, false) :: abortLatest s.requests,
        applied := s.applied }
    else s
  | Ev.respond g =>
    if (g, false) ∈ s.requests then { s with applied := some g } else s

/-- States reachable from a fresh session. -/
inductive Reachable : FetchState → Prop where
  | init : Reachable initState
  | tr : ∀ {s : FetchState}, Reachable s → ∀ e : Ev, Reachable (step s e)

/-- Protocol invariant: every request behind the newest is aborted, all
generations are below `nextGen`, and the newest request has generation
`nextGen - 1`. -/
def Inv (s : FetchState) : Prop :=
  (∀ p ∈ s.requests.tail, p.2 = true) ∧
  (∀ p ∈ s.requests, p.1 < s.nextGen) ∧
  (∀ g b, s.requests.head? = some (g, b) → g + 1 = s.nextGen)

lemma abortLatest_mem (l : List (ℕ × Bool)) (p : ℕ × Bool) (hp : p ∈ abortLatest l) :
    ∃ b, (p.1, b) ∈ l := by
  cases l with
  | nil => simp [abortLatest] at hp
  | cons q qs =>
    obtain ⟨g, b0⟩ := q
    simp only [abortLatest] at hp
    rcases List.mem_cons.mp hp with h | h
    · rw [h]
      exact ⟨b0, List.mem_cons_self _ _⟩
    · exact ⟨p.2, List.mem_cons_of_mem _ (by simpa using h)⟩

lemma inv_init : Inv initState := by
  refine ⟨?_, ?_, ?_⟩ <;> simp [initState]

lemma inv_step (s : FetchState) (hs : Inv s) (e : Ev) : Inv (step s e) := by
  obtain ⟨h1, h2, h3⟩ := hs
  cases e with
  | edit => exact ⟨h1, h2, h3⟩
  | timerFire =>
    by_cases ht : s.timerActive
    · simp only [step, if_pos ht]
      dsimp only [Inv]
      refine ⟨?_, ?_, ?_⟩
      · intro p hp
        cases hreq : s.requests with
        | nil =>
          rw [hreq] at hp
          simp [abortLatest] at hp
        | cons q qs =>
          obtain ⟨g, b⟩ := q
          rw [hreq] at hp
          simp only [abortLatest, List.tail_cons] at hp
          rcases List.mem_cons.mp hp with h | h
          · rw [h]
          · exact h1 p (by rw [hreq]; exact h)
      · intro p hp
        rcases List.mem_cons.mp hp with h | h
        · rw [h]
          simp
        · obtain ⟨b', hb'⟩ := abortLatest_mem _ p h
          have := h2 (p.1, b') hb'
          simp only at this
          omega
      · intro g b hhead
        simp only [List.head?_cons, Option.some.injEq] at hhead
        have : s.nextGen = g := congrArg Prod.fst hhead
        omega
    · simp only [step, if_neg ht]
      exact ⟨h1, h2, h3⟩
  | respond g =>
    by_cases hmem : (g, false) ∈ s.requests
    · simp only [step, if_pos hmem]
      exact ⟨h1, h2, h3⟩
    · simp only [step, if_neg hmem]
      exact ⟨h1, h2, h3⟩

lemma reachable_inv (s : FetchState) (hs : Reachable s) : Inv s := by
  induction hs with
  | init => exact inv_init
  | tr hr e ih => exact inv_step _ ih e

lemma inv_atMostOneActive (s : FetchState) (hs : Inv s) :
    s.requests.countP (fun p => !p.2) ≤ 1 := by
  obtain ⟨h1, -, -⟩ := hs
  cases hreq : s.requests with
  | nil => simp
  | cons q qs =>
    rw [List.countP_cons]
    have hz : qs.countP (fun p => !p.2) = 0 := by
      rw [List.countP_eq_zero]
      intro p hp
      have := h1 p (by rw [hreq]; exact hp)
      simp [this]
    rw [hz]
    split <;> omega

lemma stale_response_ignored (s : FetchState) (g : ℕ) (hs : Inv s)
    (hnewer : ∃ p ∈ s.requests, g < p.1) :
    step s (Ev.respond g) = s := by
  obtain ⟨h1, h2, h3⟩ := hs
  obtain ⟨p, hp, hgp⟩ := hnewer
  have hnot : (g, false) ∉ s.requests := by
    intro hmem
    cases hreq : s.requests with
    | nil =>
      rw [hreq] at hmem
      simp at hmem
    | cons q qs =>
      rw [hreq] at hmem hp
      rcases List.mem_cons.mp hmem with h | h
      · have hh : s.requests.head? = some (g, false) := by
          rw [hreq, ← h]
          rfl
        have hg1 : g + 1 = s.nextGen := h3 g false hh
        have hpn : p.1 < s.nextGen := h2 p (by rw [hreq]; exact hp)
        omega
      · have := h1 (g, false) (by rw [hreq]; exact h)
        simp at this
  simp [step, hnot]

/-- The spec's debounce scenario: three geometry edits inside one debounce
window, then the timer fires. -/
def debounceTrace : List Ev := [Ev.edit, Ev.edit, Ev.edit, Ev.timerFire]

/-- Claim C3: in every reachable coordination state at most one elevation
request is uncancelled; a response whose request was superseded by a newer
one changes nothing (profile, overlay, chart and stats — collapsed into the
`applied` field — are untouched); and three edits within one debounce window
yield exactly one elevation request, with the timer disarmed afterwards. -/
theorem fetch_coordination_correct :
    (∀ s : FetchState, Reachable s → s.requests.countP (fun p => !p.2) ≤ 1) ∧
    (∀ (s : FetchState) (g : ℕ), Reachable s → (∃ p ∈ s.requests, g < p.1) →
      step s (Ev.respond g) = s) ∧
    (debounceTrace.foldl step initState).nextGen = 1 ∧
    (debounceTrace.foldl step initState).requests.length = 1 ∧
    (debounceTrace.foldl step initState).timerActive = false := by
  refine ⟨?_, ?_, rfl, rfl, rfl⟩
  · intro s hs
    exact inv_atMostOneActive s (reachable_inv s hs)
  · intro s g hs hnew
    exact stale_response_ignored s g (reachable_inv s hs) hnew

/-- Witness for `fetch_coordination_correct`: after edit/fire/edit/fire the
session holds requests `[(1, false), (0, true)]`; the stale response of
generation 0 (superseded by generation 1) leaves the state untouched. -/
theorem fetch_coordination_correct_witness :
    step (step (step (step (step initState Ev.edit) Ev.timerFire) Ev.edit) Ev.timerFire)
      (Ev.respond 0) =
    step (step (step (step initState Ev.edit) Ev.timerFire) Ev.edit) Ev.timerFire :=
  fetch_coordination_correct.2.1
    (step (step (step (step initState Ev.edit) Ev.timerFire) Ev.edit) Ev.timerFire) 0
    (Reachable.tr (Reachable.tr (Reachable.tr (Reachable.tr Reachable.init Ev.edit)
      Ev.timerFire) Ev.edit) Ev.timerFire)
    ⟨(1, false), by decide, by decide⟩

end CycleMaps
